import Mathlib

/-!
Verification of the NRD domain-surveillance pipeline (main.py,
backend/db_manager.py, screenshot_hybrid.py) against its specification.

Strings are modelled as lists of characters (`Str`).  Python-level string
operations used by the source (strip, lower, split, startswith, rstrip,
substring search) are re-implemented below on `Str`, following the source.
Network fetches, the content-hash function and timestamp parsing are
side-effecting or platform facilities; they enter the model as explicit
function arguments, so every definition stays executable.
-/

abbrev Str := List Char

/-- Characters stripped by Python str.strip() (ASCII whitespace). -/
def pySpace (c : Char) : Bool :=
  c == ' ' || c == '\t' || c == '\n' || c == '\r' || c == '\x0b' || c == '\x0c'

/-- Python str.strip(): drop leading and trailing whitespace. -/
def stripL (l : Str) : Str :=
  ((l.dropWhile pySpace).reverse.dropWhile pySpace).reverse

/-- ASCII lowercase table, as used by Python str.lower() on ASCII input. -/
def lowerMap : List (Char × Char) :=
  [('A','a'),('B','b'),('C','c'),('D','d'),('E','e'),('F','f'),('G','g'),
   ('H','h'),('I','i'),('J','j'),('K','k'),('L','l'),('M','m'),('N','n'),
   ('O','o'),('P','p'),('Q','q'),('R','r'),('S','s'),('T','t'),('U','u'),
   ('V','v'),('W','w'),('X','x'),('Y','y'),('Z','z')]

/-- Lowercase one character (identity off the ASCII uppercase range). -/
def lowerChar (c : Char) : Char :=
  (lowerMap.lookup c).getD c

/-- Python str.lower() on ASCII input. -/
def toLowerL (l : Str) : Str := l.map lowerChar

/-- Boolean prefix test, Python str.startswith. -/
def isPrefixB : Str → Str → Bool
  | [], _ => true
  | _ :: _, [] => false
  | a :: as, b :: bs => a == b && isPrefixB as bs

/-- Boolean substring test, Python `sub in s`. -/
def isInfixB (s : Str) : Str → Bool
  | [] => isPrefixB s []
  | c :: t => isPrefixB s (c :: t) || isInfixB s t

/-- Boolean suffix test, Python str.endswith / an anchored regex. -/
def isSuffixB (s l : Str) : Bool :=
  isPrefixB s.reverse l.reverse

/-- The part after the first occurrence of sep: Python s.split(sep, 1)[1].
Returns none when sep does not occur. -/
def afterFirst (sep : Str) : Str → Option Str
  | [] => if sep.isEmpty then some [] else none
  | c :: t =>
    if isPrefixB sep (c :: t) then some ((c :: t).drop sep.length)
    else afterFirst sep t

/-- Python s.rstrip(dot): drop trailing '.' characters. -/
def rstripDots (l : Str) : Str :=
  (l.reverse.dropWhile (fun c => c == '.')).reverse

/-- Stage of normalize_domain: if a scheme separator occurs, keep only the
part after its first occurrence. -/
def schemeCut (d : Str) : Str :=
  match afterFirst ("://".toList) d with
  | some r => r
  | none => d

/-- Stage of normalize_domain: if a '/' occurs, keep only the part before
the first '/'. -/
def slashCut (d : Str) : Str :=
  if d.contains '/' then d.takeWhile (fun c => c != '/') else d

/-- Stage of normalize_domain: strip one leading "www.". -/
def wwwCut (d : Str) : Str :=
  if isPrefixB ("www.".toList) d then d.drop 4 else d

/-- normalize_domain from main.py: strip and lowercase, drop a scheme://
prefix, keep only the part before the first '/', strip one leading "www.",
strip trailing dots. -/
def normalizeDomain (x : Str) : Str :=
  rstripDots (wwwCut (slashCut (schemeCut (toLowerL (stripL x)))))

-- Basic facts about the helpers ---------------------------------------------

theorem lookup_mem {α β : Type} [BEq α] [LawfulBEq α]
    (l : List (α × β)) (a : α) (b : β) (h : l.lookup a = some b) :
    (a, b) ∈ l := by
  induction l with
  | nil => simp [List.lookup] at h
  | cons p t ih =>
    rw [List.lookup] at h
    by_cases hpa : a == p.1
    · simp [hpa] at h
      have : a = p.1 := by exact eq_of_beq hpa
      subst this
      subst h
      exact List.mem_cons_self _ _
    · simp [hpa] at h
      exact List.mem_cons_of_mem _ (ih h)

theorem lowerChar_idem (c : Char) : lowerChar (lowerChar c) = lowerChar c := by
  have key : ∀ p ∈ lowerMap, lowerMap.lookup p.2 = none := by decide
  cases h : lowerMap.lookup c with
  | none =>
    have hc : lowerChar c = c := by simp [lowerChar, h]
    rw [hc, hc]
  | some l =>
    have hc : lowerChar c = l := by simp [lowerChar, h]
    have hmem : (c, l) ∈ lowerMap := lookup_mem _ _ _ h
    have hnone : lowerMap.lookup l = none := key (c, l) hmem
    rw [hc]
    simp [lowerChar, hnone]

/-- All characters of a string are fixed by lowercasing. -/
def AllLower (l : Str) : Prop := ∀ c ∈ l, lowerChar c = c

theorem allLower_toLowerL (l : Str) : AllLower (toLowerL l) := by
  intro c hc
  simp [toLowerL] at hc
  obtain ⟨a, _, rfl⟩ := hc
  exact lowerChar_idem a

theorem allLower_of_subset {l l' : Str} (h : l' ⊆ l) (hl : AllLower l) :
    AllLower l' := fun c hc => hl c (h hc)

theorem toLowerL_eq_self {l : Str} (h : AllLower l) : toLowerL l = l := by
  induction l with
  | nil => rfl
  | cons c t ih =>
    simp [toLowerL] at ih ⊢
    constructor
    · exact h c (List.mem_cons_self _ _)
    · exact ih (fun x hx => h x (List.mem_cons_of_mem _ hx))

theorem afterFirst_decomp (sep : Str) (d t : Str)
    (h : afterFirst sep d = some t) : ∃ pre, pre ++ sep ++ t = d := by
  induction d with
  | nil =>
    by_cases hs : sep.isEmpty <;> simp [afterFirst, hs] at h
    · exact ⟨[], by simp [List.isEmpty_iff.mp hs, ← h]⟩
  | cons c cs ih =>
    rw [afterFirst] at h
    by_cases hp : isPrefixB sep (c :: cs)
    · simp [hp] at h
      refine ⟨[], ?_⟩
      have hpre : ∀ s l : Str, isPrefixB s l = true → s ++ l.drop s.length = l := by
        intro s
        induction s with
        | nil => intro l _; simp
        | cons a as ihs =>
          intro l hl
          cases l with
          | nil => simp [isPrefixB] at hl
          | cons b bs =>
            simp [isPrefixB] at hl
            obtain ⟨hab, hrest⟩ := hl
            subst hab
            simpa using ihs bs hrest
      simpa [← h] using hpre sep (c :: cs) hp
    · simp [hp] at h
      obtain ⟨pre, hpre⟩ := ih h
      exact ⟨c :: pre, by simp [← hpre]⟩

theorem isPrefixB_length {s l : Str} (h : isPrefixB s l = true) :
    s.length ≤ l.length := by
  induction s generalizing l with
  | nil => simp
  | cons a as ih =>
    cases l with
    | nil => simp [isPrefixB] at h
    | cons b bs =>
      simp [isPrefixB] at h
      simpa using ih h.2

theorem mem_of_afterFirst {sep d t : Str} (h : afterFirst sep d = some t) :
    ∀ c ∈ sep, c ∈ d := by
  obtain ⟨pre, hpre⟩ := afterFirst_decomp sep d t h
  intro c hc
  rw [← hpre]
  simp [hc]

theorem afterFirst_sub {sep d t : Str} (h : afterFirst sep d = some t) :
    t ⊆ d := by
  obtain ⟨pre, hpre⟩ := afterFirst_decomp sep d t h
  intro c hc
  rw [← hpre]
  simp [hc]

theorem dropWhile_idem {α : Type} (p : α → Bool) (l : List α) :
    (l.dropWhile p).dropWhile p = l.dropWhile p := by
  induction l with
  | nil => rfl
  | cons a t ih =>
    by_cases h : p a
    · simp [List.dropWhile, h, ih]
    · simp [List.dropWhile, h]

theorem rstripDots_idem (l : Str) : rstripDots (rstripDots l) = rstripDots l := by
  simp [rstripDots, dropWhile_idem]

theorem rstripDots_sub (l : Str) : rstripDots l ⊆ l := by
  intro c hc
  simp [rstripDots] at hc
  have h1 : l.reverse.dropWhile (fun c => c == '.') ⊆ l.reverse :=
    List.dropWhile_sublist _ |>.subset
  have := h1 hc
  simpa using this

theorem schemeCut_sub (d : Str) : schemeCut d ⊆ d := by
  unfold schemeCut
  cases h : afterFirst ("://".toList) d with
  | none => exact fun c hc => hc
  | some r => exact afterFirst_sub h

theorem slashCut_sub (d : Str) : slashCut d ⊆ d := by
  unfold slashCut
  split
  · exact List.takeWhile_subset _
  · exact fun c hc => hc

theorem wwwCut_sub (d : Str) : wwwCut d ⊆ d := by
  unfold wwwCut
  split
  · exact List.drop_subset 4 d
  · exact fun c hc => hc

theorem contains_iff_memL (d : Str) (c : Char) : d.contains c = true ↔ c ∈ d := by
  simp [List.contains, List.elem_iff]

theorem noSlash_slashCut (d : Str) : '/' ∉ slashCut d := by
  intro hmem
  unfold slashCut at hmem
  split at hmem
  case isTrue h =>
    have hpred := List.mem_takeWhile_imp hmem
    simp at hpred
  case isFalse h =>
    exact h ((contains_iff_memL d '/').mpr hmem)

theorem noSlash_normalizeDomain (x : Str) : '/' ∉ normalizeDomain x := by
  intro hmem
  unfold normalizeDomain at hmem
  exact noSlash_slashCut _ (wwwCut_sub _ (rstripDots_sub _ hmem))

theorem afterFirst_none_of {sep d : Str} {c : Char} (hc : c ∈ sep)
    (hd : c ∉ d) : afterFirst sep d = none := by
  cases h : afterFirst sep d with
  | none => rfl
  | some t => exact absurd (mem_of_afterFirst h c hc) hd

theorem normalizeDomain_sub_lower (x : Str) :
    normalizeDomain x ⊆ toLowerL (stripL x) := by
  intro c hc
  unfold normalizeDomain at hc
  exact schemeCut_sub _ (slashCut_sub _ (wwwCut_sub _ (rstripDots_sub _ hc)))

theorem allLower_normalizeDomain (x : Str) : AllLower (normalizeDomain x) :=
  allLower_of_subset (normalizeDomain_sub_lower x) (allLower_toLowerL _)

theorem rstripDots_normalizeDomain (x : Str) :
    rstripDots (normalizeDomain x) = normalizeDomain x := by
  unfold normalizeDomain
  exact rstripDots_idem _

-- ===========================================================================
-- Classification engine (main.py parse_and_filter_domains)
-- ===========================================================================

/-- Primary categories of the classification engine. -/
inductive Cat where
  | golden
  | absa
  | coza
  | africa
  | pattern
deriving DecidableEq, Repr

/-- Regex search for the anchored pattern matching ".co.za" at the end of
the raw domain, case-insensitively. -/
def hasCoza (d : Str) : Bool := isSuffixB (".co.za".toList) (toLowerL d)

/-- Regex search for the anchored pattern matching ".africa" at the end of
the raw domain, case-insensitively. -/
def hasAfrica (d : Str) : Bool := isSuffixB (".africa".toList) (toLowerL d)

/-- Regex search for the brand token "absa" anywhere in the raw domain,
case-insensitively. -/
def hasAbsa (d : Str) : Bool := isInfixB ("absa".toList) (toLowerL d)

/-- An escaped pattern-file line compiled with IGNORECASE and applied with
search: case-insensitive literal substring match. -/
def patternHits (p d : Str) : Bool := isInfixB (toLowerL p) (toLowerL d)

/-- Python any(p.search(domain) for p in all_patterns). -/
def matchesAny (pats : List Str) (d : Str) : Bool :=
  pats.any (fun p => patternHits p d)

/-- The primary category the code assigns: the if/elif chain of
parse_and_filter_domains, with the separate pattern check picking up the
domains that fall in no chain bucket; none means the domain is dropped. -/
def codeCategory (pats : List Str) (d : Str) : Option Cat :=
  if (hasCoza d || hasAfrica d) && hasAbsa d then some Cat.golden
  else if hasCoza d then some Cat.coza
  else if hasAbsa d then some Cat.absa
  else if hasAfrica d then some Cat.africa
  else if matchesAny pats d then some Cat.pattern
  else none

/-- The category priority exactly as the specification words it: golden if
(co.za or africa) and brand; else absa if brand only; else coza; else
africa; else pattern; else dropped. -/
def specCategory (pats : List Str) (d : Str) : Option Cat :=
  if (hasCoza d || hasAfrica d) && hasAbsa d then some Cat.golden
  else if hasAbsa d then some Cat.absa
  else if hasCoza d then some Cat.coza
  else if hasAfrica d then some Cat.africa
  else if matchesAny pats d then some Cat.pattern
  else none

/-- Python dict.fromkeys-based deduplication, keeping first occurrences. -/
def pyDedup (l : List Str) : List Str :=
  l.foldl (fun acc d => if d ∈ acc then acc else acc ++ [d]) []

/-- The ignore check of the per-domain loop: the normalized form is looked
up in the (pre-normalized) ignore set. -/
def notIgnored (ignore : List Str) (d : Str) : Bool :=
  !(normalizeDomain d ∈ ignore : Bool)

/-- Bucket condition for golden_matches. -/
def goldenCond (d : Str) : Bool := (hasCoza d || hasAfrica d) && hasAbsa d

/-- Bucket condition for coza_only (the elif branch). -/
def cozaCond (d : Str) : Bool := !goldenCond d && hasCoza d

/-- Bucket condition for absa_only (the elif branch). -/
def absaCond (d : Str) : Bool := !goldenCond d && !hasCoza d && hasAbsa d

/-- Bucket condition for africa_only (the elif branch). -/
def africaCond (d : Str) : Bool :=
  !goldenCond d && !hasCoza d && !hasAbsa d && hasAfrica d

/-- One day of parse_and_filter_domains: the deduplicated all_matches list,
combining the five buckets in the order the code concatenates them. -/
def dayMatches (pats ignore : List Str) (ds : List Str) : List Str :=
  let keep := ds.filter (notIgnored ignore)
  pyDedup (keep.filter goldenCond ++ keep.filter cozaCond ++
    keep.filter absaCond ++ keep.filter (matchesAny pats) ++
    keep.filter africaCond)

theorem mem_pyDedup_aux (l acc : List Str) (d : Str) :
    d ∈ l.foldl (fun acc d => if d ∈ acc then acc else acc ++ [d]) acc ↔
      d ∈ acc ∨ d ∈ l := by
  induction l generalizing acc with
  | nil => simp
  | cons x t ih =>
    rw [List.foldl_cons]
    by_cases hx : x ∈ acc
    · rw [if_pos hx, ih]
      constructor
      · tauto
      · rintro (h | h)
        · tauto
        · rcases List.mem_cons.mp h with rfl | h
          · exact Or.inl hx
          · tauto
    · rw [if_neg hx, ih]
      simp only [List.mem_append, List.mem_cons, List.mem_singleton,
        List.not_mem_nil]
      tauto

theorem mem_pyDedup (l : List Str) (d : Str) : d ∈ pyDedup l ↔ d ∈ l := by
  unfold pyDedup
  rw [mem_pyDedup_aux]
  simp

theorem mem_dayMatches (pats ignore ds : List Str) (d : Str) :
    d ∈ dayMatches pats ignore ds ↔
      d ∈ ds ∧ notIgnored ignore d = true ∧ codeCategory pats d ≠ none := by
  unfold dayMatches
  rw [mem_pyDedup]
  simp only [List.mem_append, List.mem_filter]
  cases hc : hasCoza d <;> cases ha : hasAbsa d <;> cases hf : hasAfrica d <;>
    cases hp : matchesAny pats d <;>
      simp [codeCategory, goldenCond, cozaCond, absaCond, africaCond,
        hc, ha, hf, hp] <;> tauto

/-- C4 counterexample: normalize_domain is not idempotent as claimed; it
strips only one leading "www.", so a doubled "www." prefix loses a second
copy on the second pass. -/
theorem C4_counterexample :
    normalizeDomain (normalizeDomain ("www.www.example.com".toList)) ≠
      normalizeDomain ("www.www.example.com".toList) := by
  decide

/-- C4 (amended): normalize_domain is idempotent on every input whose
normalized form does not itself start with "www." and carries no leading
or trailing whitespace (the scheme cut can expose inner whitespace that
only the second pass strips). -/
theorem C4_idempotent_amended (x : Str)
    (h1 : stripL (normalizeDomain x) = normalizeDomain x)
    (h2 : isPrefixB ("www.".toList) (normalizeDomain x) = false) :
    normalizeDomain (normalizeDomain x) = normalizeDomain x := by
  have hns : '/' ∉ normalizeDomain x := noSlash_normalizeDomain x
  have hlow : toLowerL (normalizeDomain x) = normalizeDomain x :=
    toLowerL_eq_self (allLower_normalizeDomain x)
  have hcolon : afterFirst ("://".toList) (normalizeDomain x) = none :=
    afterFirst_none_of (by decide : '/' ∈ "://".toList) hns
  show rstripDots (wwwCut (slashCut (schemeCut
    (toLowerL (stripL (normalizeDomain x)))))) = normalizeDomain x
  rw [h1, hlow]
  rw [show schemeCut (normalizeDomain x) = normalizeDomain x from by
    unfold schemeCut; rw [hcolon]]
  rw [show slashCut (normalizeDomain x) = normalizeDomain x from by
    unfold slashCut
    rw [if_neg (fun hcon => hns ((contains_iff_memL _ _).mp hcon))]]
  have h2e : isPrefixB (['w','w','w','.'] : Str) (normalizeDomain x) = false := h2
  rw [show wwwCut (normalizeDomain x) = normalizeDomain x from by
    unfold wwwCut
    rw [if_neg (by simp [h2e])]]
  exact rstripDots_normalizeDomain x

/-- C4 witness: a concrete input with scheme, mixed case and path on which
the amended idempotence theorem applies. -/
theorem C4_witness :
    stripL (normalizeDomain ("HTTP://Example.com/path".toList)) =
        normalizeDomain ("HTTP://Example.com/path".toList) ∧
    isPrefixB ("www.".toList)
        (normalizeDomain ("HTTP://Example.com/path".toList)) = false ∧
    normalizeDomain (normalizeDomain ("HTTP://Example.com/path".toList)) =
      normalizeDomain ("HTTP://Example.com/path".toList) :=
  ⟨by decide, by decide, C4_idempotent_amended _ (by decide) (by decide)⟩

/-- C2: the primary category assigned by parse_and_filter_domains agrees
with the spec's first-match-wins priority chain on every input; the five
quoted examples categorize as claimed; and a day's output contains exactly
the non-ignored domains whose category is not none (the rest are dropped). -/
theorem C2_category_priority :
    (∀ pats d, codeCategory pats d = specCategory pats d) ∧
    codeCategory [] ("absa-login.co.za".toList) = some Cat.golden ∧
    codeCategory [] ("absa-update.africa".toList) = some Cat.golden ∧
    codeCategory [] ("myabsa.net".toList) = some Cat.absa ∧
    codeCategory [] ("securebank.co.za".toList) = some Cat.coza ∧
    codeCategory ["bank".toList] ("securebank.net".toList) = some Cat.pattern ∧
    (∀ pats ignore ds d, d ∈ dayMatches pats ignore ds ↔
      d ∈ ds ∧ notIgnored ignore d = true ∧ codeCategory pats d ≠ none) := by
  refine ⟨?_, by decide, by decide, by decide, by decide, by decide,
    mem_dayMatches⟩
  intro pats d
  cases hc : hasCoza d <;> cases ha : hasAbsa d <;> cases hf : hasAfrica d <;>
    simp [codeCategory, specCategory, hc, ha, hf]

-- ===========================================================================
-- First-seen ledger (main.py load/save_first_seen_map and the update loop)
-- ===========================================================================

/-- Association-list lookup modelling Python dict access, first binding
wins (dicts hold at most one binding per key). -/
def lookupS : List (Str × Str) → Str → Option Str
  | [], _ => none
  | (k, v) :: t, key => if k = key then some v else lookupS t key

/-- One iteration of the first-seen update loop: the key is the lowercased
raw domain and an existing entry is never overwritten. -/
def ledgerStep (date : Str) (m : List (Str × Str)) (dm : Str) :
    List (Str × Str) :=
  if (lookupS m (toLowerL dm)).isSome then m else m ++ [(toLowerL dm, date)]

/-- The first-seen update loop over one day's all_matches list. -/
def processMatches (m : List (Str × Str)) (ms : List Str) (date : Str) :
    List (Str × Str) :=
  ms.foldl (ledgerStep date) m

/-- The first-seen updates of a whole classification run: one
(matches, date) pair per pending feed day, processed in order. -/
def processDays (m : List (Str × Str)) (days : List (List Str × Str)) :
    List (Str × Str) :=
  days.foldl (fun m p => processMatches m p.1 p.2) m

theorem lookupS_append_left {m : List (Str × Str)} {k v} (tl : List (Str × Str))
    (h : lookupS m k = some v) : lookupS (m ++ tl) k = some v := by
  induction m with
  | nil => simp [lookupS] at h
  | cons p t ih =>
    obtain ⟨k', v'⟩ := p
    rw [lookupS] at h
    by_cases hk : k' = k
    · simp [lookupS, hk] at h ⊢
      exact h
    · simp [lookupS, hk] at h ⊢
      exact ih h

theorem ledgerStep_preserves {m k v} (date : Str) (dm : Str)
    (h : lookupS m k = some v) : lookupS (ledgerStep date m dm) k = some v := by
  unfold ledgerStep
  split
  · exact h
  · exact lookupS_append_left _ h

theorem processMatches_preserves {m k v} (ms : List Str) (date : Str)
    (h : lookupS m k = some v) :
    lookupS (processMatches m ms date) k = some v := by
  unfold processMatches
  induction ms generalizing m with
  | nil => exact h
  | cons dm t ih =>
    rw [List.foldl_cons]
    exact ih (ledgerStep_preserves date dm h)

theorem processDays_preserves {m k v} (days : List (List Str × Str))
    (h : lookupS m k = some v) :
    lookupS (processDays m days) k = some v := by
  unfold processDays
  induction days generalizing m with
  | nil => exact h
  | cons p t ih =>
    rw [List.foldl_cons]
    exact ih (processMatches_preserves p.1 p.2 h)

theorem lookupS_append_single {m : List (Str × Str)} {k k' v' : Str}
    (h : lookupS m k = none) :
    lookupS (m ++ [(k', v')]) k = if k' = k then some v' else none := by
  induction m with
  | nil => simp [lookupS]
  | cons p t ih =>
    obtain ⟨a, b⟩ := p
    rw [lookupS] at h
    by_cases ha : a = k
    · simp [ha] at h
    · simp [lookupS, ha] at h ⊢
      exact ih h

theorem processMatches_new {m : List (Str × Str)} {ms : List Str}
    {date k v : Str} (h0 : lookupS m k = none)
    (h1 : lookupS (processMatches m ms date) k = some v) :
    (∃ dm ∈ ms, k = toLowerL dm) ∧ v = date := by
  induction ms generalizing m with
  | nil =>
    unfold processMatches at h1
    simp at h1
    rw [h0] at h1
    exact absurd h1 (by simp)
  | cons dm t ih =>
    unfold processMatches at h1
    rw [List.foldl_cons] at h1
    cases hk : lookupS (ledgerStep date m dm) k with
    | none =>
      obtain ⟨⟨x, hx, hkx⟩, hv⟩ := ih hk h1
      exact ⟨⟨x, List.mem_cons_of_mem _ hx, hkx⟩, hv⟩
    | some w =>
      have hfin : lookupS (processMatches (ledgerStep date m dm) t date) k
          = some w := processMatches_preserves t date hk
      unfold processMatches at hfin
      rw [hfin] at h1
      obtain rfl : w = v := by injection h1
      unfold ledgerStep at hk
      split at hk
      · rw [h0] at hk
        exact absurd hk (by simp)
      · rw [lookupS_append_single h0] at hk
        by_cases hkk : toLowerL dm = k
        · simp [hkk] at hk
          exact ⟨⟨dm, List.mem_cons_self _ _, hkk.symm⟩, hk.symm⟩
        · simp [hkk] at hk

theorem lookupS_none_iff (m : List (Str × Str)) (k : Str) :
    lookupS m k = none ↔ k ∉ m.map Prod.fst := by
  induction m with
  | nil => simp [lookupS]
  | cons p t ih =>
    obtain ⟨a, b⟩ := p
    rw [lookupS]
    by_cases ha : a = k
    · subst ha
      simp
    · simp only [ha, if_false]
      rw [ih]
      simp only [List.map_cons, List.mem_cons]
      constructor
      · intro h hk
        rcases hk with hk | hk
        · exact ha hk.symm
        · exact h hk
      · intro h hk
        exact h (Or.inr hk)

theorem ledgerStep_nodupKeys {m : List (Str × Str)} (date dm : Str)
    (h : (m.map Prod.fst).Nodup) :
    ((ledgerStep date m dm).map Prod.fst).Nodup := by
  unfold ledgerStep
  split
  · exact h
  case isFalse hnone =>
    rw [List.map_append]
    simp only [List.map_cons, List.map_nil]
    rw [List.nodup_append]
    refine ⟨h, by simp, ?_⟩
    intro a ha hb
    simp at hb
    subst hb
    have : lookupS m (toLowerL dm) = none := by
      cases hx : lookupS m (toLowerL dm) with
      | none => rfl
      | some w => exact absurd (by rw [hx]; simp) hnone
    exact (lookupS_none_iff m (toLowerL dm)).mp this ha

theorem processMatches_nodupKeys {m : List (Str × Str)} (ms : List Str)
    (date : Str) (h : (m.map Prod.fst).Nodup) :
    ((processMatches m ms date).map Prod.fst).Nodup := by
  unfold processMatches
  induction ms generalizing m with
  | nil => exact h
  | cons dm t ih =>
    rw [List.foldl_cons]
    exact ih (ledgerStep_nodupKeys date dm h)

-- ===========================================================================
-- Sorting, modelling Python sorted() on code-point strings
-- ===========================================================================

/-- Code-point lexicographic order on strings, the order Python sorted()
and the < operator use on str. -/
def lexLe : Str → Str → Bool
  | [], _ => true
  | _ :: _, [] => false
  | a :: as, b :: bs =>
    if a.toNat < b.toNat then true
    else if b.toNat < a.toNat then false
    else lexLe as bs

theorem lexLe_total (a b : Str) : lexLe a b = true ∨ lexLe b a = true := by
  induction a generalizing b with
  | nil => left; rfl
  | cons x xs ih =>
    cases b with
    | nil => right; rfl
    | cons y ys =>
      rcases Nat.lt_trichotomy x.toNat y.toNat with h | h | h
      · left; simp [lexLe, h]
      · rcases ih ys with h2 | h2
        · left; simp [lexLe, h, h2]
        · right; simp [lexLe, h.symm, h2]
      · right; simp [lexLe, h]

theorem lexLe_trans {a b c : Str} (h1 : lexLe a b = true)
    (h2 : lexLe b c = true) : lexLe a c = true := by
  induction a generalizing b c with
  | nil => rfl
  | cons x xs ih =>
    cases b with
    | nil => simp [lexLe] at h1
    | cons y ys =>
      cases c with
      | nil => simp [lexLe] at h2
      | cons z zs =>
        rw [lexLe] at h1 h2 ⊢
        rcases Nat.lt_trichotomy x.toNat y.toNat with hxy | hxy | hxy
        · rcases Nat.lt_trichotomy y.toNat z.toNat with hyz | hyz | hyz
          · simp [Nat.lt_trans hxy hyz]
          · have hxz : x.toNat < z.toNat := by omega
            simp [hxz]
          · exfalso
            rw [if_neg (Nat.lt_asymm hyz), if_pos hyz] at h2
            simp at h2
        · rcases Nat.lt_trichotomy y.toNat z.toNat with hyz | hyz | hyz
          · have hxz : x.toNat < z.toNat := by omega
            simp [hxz]
          · have h1x : lexLe xs ys = true := by
              rw [if_neg (by omega), if_neg (by omega)] at h1
              exact h1
            have h2x : lexLe ys zs = true := by
              rw [if_neg (by omega), if_neg (by omega)] at h2
              exact h2
            rw [if_neg (by omega), if_neg (by omega)]
            exact ih h1x h2x
          · exfalso
            rw [if_neg (Nat.lt_asymm hyz), if_pos hyz] at h2
            simp at h2
        · exfalso
          rw [if_neg (Nat.lt_asymm hxy), if_pos hxy] at h1
          simp at h1

/-- Insert into a sorted list, keeping it sorted. -/
def insertSorted {α : Type} (le : α → α → Bool) (x : α) : List α → List α
  | [] => [x]
  | y :: ys => if le x y then x :: y :: ys else y :: insertSorted le x ys

/-- Insertion sort; models Python sorted() for a total order. -/
def insSort {α : Type} (le : α → α → Bool) : List α → List α
  | [] => []
  | x :: xs => insertSorted le x (insSort le xs)

theorem mem_insertSorted {α : Type} (le : α → α → Bool) (x a : α)
    (l : List α) : a ∈ insertSorted le x l ↔ a = x ∨ a ∈ l := by
  induction l with
  | nil => simp [insertSorted]
  | cons y ys ih =>
    rw [insertSorted]
    split
    · simp
    · simp [ih]
      tauto

theorem mem_insSort {α : Type} (le : α → α → Bool) (a : α) (l : List α) :
    a ∈ insSort le l ↔ a ∈ l := by
  induction l with
  | nil => simp [insSort]
  | cons x xs ih =>
    rw [insSort, mem_insertSorted, ih]
    simp

theorem pairwise_insertSorted {α : Type} (le : α → α → Bool)
    (htot : ∀ a b, le a b = true ∨ le b a = true)
    (htr : ∀ {a b c}, le a b = true → le b c = true → le a c = true)
    (x : α) (l : List α) (h : l.Pairwise (fun a b => le a b = true)) :
    (insertSorted le x l).Pairwise (fun a b => le a b = true) := by
  induction l with
  | nil => simp [insertSorted]
  | cons y ys ih =>
    rw [insertSorted]
    rcases List.pairwise_cons.mp h with ⟨hy, hys⟩
    split
    case isTrue hxy =>
      refine List.pairwise_cons.mpr ⟨?_, h⟩
      intro b hb
      rcases List.mem_cons.mp hb with rfl | hb
      · exact hxy
      · exact htr hxy (hy b hb)
    case isFalse hxy =>
      have hyx : le y x = true := by
        rcases htot x y with hx | hx
        · exact absurd hx hxy
        · exact hx
      refine List.pairwise_cons.mpr ⟨?_, ih hys⟩
      intro b hb
      rcases (mem_insertSorted le x b ys).mp hb with rfl | hb
      · exact hyx
      · exact hy b hb

theorem pairwise_insSort {α : Type} (le : α → α → Bool)
    (htot : ∀ a b, le a b = true ∨ le b a = true)
    (htr : ∀ {a b c}, le a b = true → le b c = true → le a c = true)
    (l : List α) :
    (insSort le l).Pairwise (fun a b => le a b = true) := by
  induction l with
  | nil => simp [insSort]
  | cons x xs ih =>
    rw [insSort]
    exact pairwise_insertSorted le htot htr x _ ih

-- ===========================================================================
-- Registry (backend/db_manager.py): domains table, upsert and history
-- ===========================================================================

/-- Python truthiness of an optional string (None and "" are falsy). -/
def pyTruthy : Option Str → Bool
  | none => false
  | some s => !s.isEmpty

/-- Python x or dflt on an optional string argument. -/
def pyOrStr (o : Option Str) (dflt : Str) : Str :=
  match o with
  | none => dflt
  | some s => if s.isEmpty then dflt else s

/-- A row of the domains table.  Nullable columns are Options; tags is
kept as the decoded list rather than its JSON encoding. -/
structure DomainRow where
  id : Str
  domain : Str
  first_seen : Str
  last_checked : Str
  is_active : Bool
  content_hash : Str
  content_changed : Bool
  has_profile : Bool
  tags : List Str
  notes : Option Str
  category : Option Str
  risk_level : Option Str
  created_at : Str
  updated_at : Str
deriving DecidableEq, Repr

/-- SELECT ... WHERE domain = ? on the domains table (domain is unique,
the first matching row is returned). -/
def findRow : List DomainRow → Str → Option DomainRow
  | [], _ => none
  | r :: rs, d => if r.domain = d then some r else findRow rs d

/-- The keyword arguments of DomainDB.upsert_domain, before the function
resolves its defaults; an absent argument is none. -/
structure UpsertArgs where
  domain : Str
  first_seen : Option Str := none
  last_checked : Option Str := none
  is_active : Bool := false
  content_hash : Option Str := none
  content_changed : Bool := false
  has_profile : Bool := false
  tags : Option (List Str) := none
  notes : Option Str := none
  category : Option Str := none
  risk_level : Option Str := none

/-- The UPDATE branch of upsert_domain: every listed column is rewritten
from the arguments; first_seen, created_at, id and domain are not in the
SET list and stay as stored. -/
def updateRow (a : UpsertArgs) (now : Str) (r : DomainRow) : DomainRow :=
  let riskR := pyOrStr a.risk_level ("unknown".toList)
  let updRisk : Option Str :=
    if riskR.isEmpty = false || pyTruthy r.risk_level = false
    then some riskR else r.risk_level
  { r with
    last_checked := pyOrStr a.last_checked now,
    is_active := a.is_active,
    content_hash := (a.content_hash).getD [],
    content_changed := a.content_changed,
    has_profile := a.has_profile,
    tags := (a.tags).getD [],
    notes := a.notes,
    category := a.category,
    risk_level := updRisk,
    updated_at := now }

/-- The INSERT branch of upsert_domain. -/
def newRow (a : UpsertArgs) (now newId : Str) : DomainRow :=
  { id := newId,
    domain := a.domain,
    first_seen := pyOrStr a.first_seen now,
    last_checked := pyOrStr a.last_checked now,
    is_active := a.is_active,
    content_hash := (a.content_hash).getD [],
    content_changed := a.content_changed,
    has_profile := a.has_profile,
    tags := (a.tags).getD [],
    notes := a.notes,
    category := a.category,
    risk_level := some (pyOrStr a.risk_level ("unknown".toList)),
    created_at := now,
    updated_at := now }

/-- DomainDB.upsert_domain: update the stored row when the domain exists,
insert a new row otherwise; returns the row id and the new table. -/
def upsertDomain (a : UpsertArgs) (now newId : Str) (reg : List DomainRow) :
    Str × List DomainRow :=
  match findRow reg a.domain with
  | some r =>
    (r.id, reg.map (fun x => if x.domain = a.domain then updateRow a now x else x))
  | none => (newId, reg ++ [newRow a now newId])

/-- A row of the domain_history table. -/
structure HistoryRow where
  id : Str
  domain_id : Str
  checked_at : Str
  is_active : Bool
  content_hash : Option Str
  content_changed : Bool
  screenshot_taken : Bool
deriving DecidableEq, Repr

/-- DomainDB.add_history_entry: appends one immutable row. -/
def addHistoryEntry (hist : List HistoryRow) (e : HistoryRow) :
    List HistoryRow :=
  hist ++ [e]

theorem updateRow_domain (a : UpsertArgs) (now : Str) (r : DomainRow) :
    (updateRow a now r).domain = r.domain := rfl

theorem findRow_map_update (a : UpsertArgs) (now : Str) (reg : List DomainRow) :
    findRow (reg.map (fun x => if x.domain = a.domain then updateRow a now x
      else x)) a.domain = (findRow reg a.domain).map (updateRow a now) := by
  induction reg with
  | nil => simp [findRow]
  | cons r rs ih =>
    by_cases hd : r.domain = a.domain
    · simp [findRow, hd, updateRow_domain]
    · simp [findRow, hd, ih]

theorem findRow_append_right {reg : List DomainRow} {d : Str}
    (h : findRow reg d = none) (tl : List DomainRow) :
    findRow (reg ++ tl) d = findRow tl d := by
  induction reg with
  | nil => simp [findRow]
  | cons r rs ih =>
    rw [findRow] at h
    by_cases hd : r.domain = d
    · simp [hd] at h
    · simp [findRow, hd] at h ⊢
      exact ih h

/-- After an upsert, the row stored for the upserted domain is the update
of the pre-existing row, or the freshly inserted row. -/
theorem findRow_upsert (a : UpsertArgs) (now newId : Str)
    (reg : List DomainRow) :
    findRow (upsertDomain a now newId reg).2 a.domain =
      some (match findRow reg a.domain with
        | some r => updateRow a now r
        | none => newRow a now newId) := by
  unfold upsertDomain
  cases h : findRow reg a.domain with
  | some r =>
    simp only
    rw [findRow_map_update, h]
    rfl
  | none =>
    simp only
    rw [findRow_append_right h]
    simp [findRow, newRow]

-- ===========================================================================
-- Activity scanner (main.py scan_single_domain / scan_domains)
-- ===========================================================================

/-- A non-raising HTTP response: status code and body text. -/
structure FetchOk where
  status : Nat
  text : Str
deriving DecidableEq, Repr

/-- The ambient facilities of a scan: the network (none models a raised
exception, timeout included), the content-hash function (hashlib.md5
hexdigest), strptime date validation and conversion, the current time and
the fresh UUIDs.  All are explicit so the model stays executable. -/
structure ScanEnv where
  net : Str → Option FetchOk
  hash : Str → Str
  ymdOk : Str → Bool
  dateToIso : Str → Str
  now : Str
  newRowId : Str
  newHistId : Str

/-- One iteration of the URL loop: an exception or a non-200/empty body
means this URL did not succeed; on success the body hash is taken. -/
def tryUrl (env : ScanEnv) (u : Str) : Option Str :=
  match env.net u with
  | some f =>
    if f.status == 200 && !(stripL f.text).isEmpty then some (env.hash f.text)
    else none
  | none => none

/-- The https-then-http probe of scan_single_domain; the loop breaks on
the first success. -/
def probeHash (env : ScanEnv) (d : Str) : Option Str :=
  match tryUrl env (("https://".toList) ++ d) with
  | some h => some h
  | none => tryUrl env (("http://".toList) ++ d)

/-- changed = bool(content_hash and prev_hash and prev_hash != content_hash). -/
def computeChanged (ch ph : Option Str) : Bool :=
  pyTruthy ch && pyTruthy ph && !(ph.getD [] == ch.getD [])

/-- The content_changed value one scan of a domain computes, given the
snapshot of the registry taken at the start of scan_domains. -/
def changedOf (env : ScanEnv) (snap : List DomainRow) (d : Str) : Bool :=
  computeChanged (probeHash env d) ((findRow snap d).map (fun r => r.content_hash))

/-- The date-to-timestamp conversion of scan_single_domain: an ISO value
(contains 'T') is kept, a valid bare date becomes midnight UTC, anything
else falls back to now. -/
def isoConvert (env : ScanEnv) (s : Str) : Str :=
  if s.contains 'T' then s
  else if env.ymdOk s then env.dateToIso s
  else env.now

/-- first_seen resolution: ledger value (keyed by the lowercased domain),
else the previously stored value, else now. -/
def firstSeenOf (env : ScanEnv) (fsm : List (Str × Str))
    (snap : List DomainRow) (d : Str) : Str :=
  let raw : Option Str :=
    if pyTruthy (lookupS fsm (toLowerL d)) then lookupS fsm (toLowerL d)
    else (findRow snap d).map (fun r => r.first_seen)
  if pyTruthy raw then isoConvert env (raw.getD []) else env.now

/-- The dict returned by scan_single_domain. -/
structure ScanOut where
  domain : Str
  is_active : Bool
  changed : Bool
deriving DecidableEq, Repr

/-- The mutable stores a scan writes to. -/
structure ScanState where
  reg : List DomainRow
  hist : List HistoryRow
deriving DecidableEq, Repr

/-- The arguments scan_single_domain passes to upsert_domain.  notes and
risk_level are not passed and stay at their None defaults. -/
def scanArgs (env : ScanEnv) (fsm : List (Str × Str)) (snap : List DomainRow)
    (d : Str) : UpsertArgs :=
  { domain := d,
    first_seen := some (firstSeenOf env fsm snap d),
    last_checked := some env.now,
    is_active := (probeHash env d).isSome,
    content_hash := some ((probeHash env d).getD []),
    content_changed := changedOf env snap d,
    has_profile := match findRow snap d with
      | some r => r.has_profile
      | none => false,
    tags := some (match findRow snap d with
      | some r => r.tags
      | none => []),
    category := match findRow snap d with
      | some r => r.category
      | none => some ("unknown".toList),
    notes := none,
    risk_level := none }

/-- The history row scan_single_domain appends (screenshot_taken is not
passed and defaults to false). -/
def histEntryOf (env : ScanEnv) (snap : List DomainRow) (d domainId : Str) :
    HistoryRow :=
  { id := env.newHistId,
    domain_id := domainId,
    checked_at := env.now,
    is_active := (probeHash env d).isSome,
    content_hash := probeHash env d,
    content_changed := changedOf env snap d,
    screenshot_taken := false }

/-- The dict value scan_single_domain returns for one domain; it depends
only on the probe and the snapshot, not on the evolving database state. -/
def scanOutOf (env : ScanEnv) (snap : List DomainRow) (d : Str) : ScanOut :=
  ⟨d, (probeHash env d).isSome, changedOf env snap d⟩

/-- scan_single_domain: probe, compute changed, upsert, append history. -/
def scanSingle (env : ScanEnv) (snap : List DomainRow) (fsm : List (Str × Str))
    (st : ScanState) (d : Str) : ScanState × ScanOut :=
  let up := upsertDomain (scanArgs env fsm snap d) env.now env.newRowId st.reg
  (⟨up.2, addHistoryEntry st.hist (histEntryOf env snap d up.1)⟩,
   scanOutOf env snap d)

/-- One gather()ed batch of scan_domains: every task runs its own probe
and returns its own dict; database writes accumulate. -/
def scanBatch (env : ScanEnv) (snap : List DomainRow) (fsm : List (Str × Str))
    (st : ScanState) (batch : List Str) : ScanState × List ScanOut :=
  (batch.foldl (fun s d => (scanSingle env snap fsm s d).1) st,
   batch.map (scanOutOf env snap))

-- ===========================================================================
-- Cumulative candidate file and sorted first-seen write (main.py)
-- ===========================================================================

/-- save_first_seen_map: rows written sorted by domain key. -/
def saveFirstSeen (m : List (Str × Str)) : List (Str × Str) :=
  insSort (fun a b => lexLe a.1 b.1) m

/-- One classification run's write to total_filtered_domains.txt: the file
is opened in append mode and the sorted deduplicated merge of the strict-
filtered batch with the include list is written after the old content. -/
def runAppend (file filtered incl : List Str) : List Str :=
  file ++ insSort lexLe (pyDedup (filtered ++ incl))

-- ===========================================================================
-- Hybrid screenshot capture (screenshot_hybrid.py, main.py)
-- ===========================================================================

/-- Outcome of one render attempt: an exception/timeout, or a written
file of the given byte size. -/
inductive ShotOutcome where
  | fail
  | file (size : Nat)
deriving DecidableEq, Repr

/-- is_valid_screenshot: the file must be at least 10240 bytes. -/
def shotValid : ShotOutcome → Bool
  | ShotOutcome.fail => false
  | ShotOutcome.file s => decide (10240 ≤ s)

/-- The result dict of HybridScreenshotCapture.capture_single. -/
structure CaptureResult where
  domain : Str
  url : Str
  filename : Str
  content_hash : Option Str
  success : Bool
  method : Option Str
deriving DecidableEq, Repr

/-- capture_single prepends https:// when no protocol is present. -/
def fixProto (url : Str) : Str :=
  if isPrefixB ("http://".toList) url || isPrefixB ("https://".toList) url
  then url else ("https://".toList) ++ url

/-- The screenshot file name: dots replaced by underscores, .png added. -/
def pngName (domain : Str) : Str :=
  (domain.map (fun c => if c = '.' then '_' else c)) ++ (".png".toList)

/-- capture_single: the fast tier runs when available; only on its failure
(including an undersized output) is the reliable tier attempted.  a1/a2
are the availability flags, o1/o2 the render outcomes of each tier. -/
def captureSingle (a1 : Bool) (o1 : ShotOutcome) (a2 : Bool)
    (o2 : ShotOutcome) (url domain : Str) (contentHash : Option Str) :
    CaptureResult :=
  if a1 && shotValid o1 then
    ⟨domain, fixProto url, pngName domain, contentHash, true,
      some ("html2image".toList)⟩
  else if a2 && shotValid o2 then
    ⟨domain, fixProto url, pngName domain, contentHash, true,
      some ("playwright".toList)⟩
  else ⟨domain, fixProto url, pngName domain, contentHash, false, none⟩

/-- An entry of the screenshot index (index.json). -/
structure IdxEntry where
  last_content_hash : Option Str
  last_screenshot : Str
  last_screenshot_path : Str
  capture_method : Str
deriving DecidableEq, Repr

/-- Python dict assignment index[k] = v: replace in place or append. -/
def setIdx : List (Str × IdxEntry) → Str → IdxEntry → List (Str × IdxEntry)
  | [], k, v => [(k, v)]
  | (k', v') :: t, k, v =>
    if k' = k then (k, v) :: t else (k', v') :: setIdx t k v

/-- Index lookup, first binding wins. -/
def lookupIdx : List (Str × IdxEntry) → Str → Option IdxEntry
  | [], _ => none
  | (k', v') :: t, k => if k' = k then some v' else lookupIdx t k

/-- The index entry capture_screenshots writes for a successful result. -/
def entryOf (ts : Str) (r : CaptureResult) : IdxEntry :=
  { last_content_hash := r.content_hash,
    last_screenshot := ts,
    last_screenshot_path := ("Output/Screenshots/".toList) ++ r.filename,
    capture_method := (r.method).getD ("unknown".toList) }

/-- The index-update loop of capture_screenshots over a batch's results. -/
def updateIndex (ts : Str) (idx : List (Str × IdxEntry))
    (results : List CaptureResult) : List (Str × IdxEntry) :=
  results.foldl (fun idx r =>
    if r.success then setIdx idx r.domain (entryOf ts r) else idx) idx

/-- The whole effect of the capture step on shared state: it rewrites the
screenshot index and performs no registry or history write at all. -/
def captureStep (st : ScanState) (ts : Str) (idx : List (Str × IdxEntry))
    (results : List CaptureResult) : ScanState × List (Str × IdxEntry) :=
  (st, updateIndex ts idx results)

theorem lookupIdx_setIdx_same (idx : List (Str × IdxEntry)) (k : Str)
    (v : IdxEntry) : lookupIdx (setIdx idx k v) k = some v := by
  induction idx with
  | nil => simp [setIdx, lookupIdx]
  | cons p t ih =>
    obtain ⟨k', v'⟩ := p
    rw [setIdx]
    by_cases hk : k' = k
    · simp [hk, lookupIdx]
    · simp [hk, lookupIdx, ih]

theorem lookupIdx_setIdx_other (idx : List (Str × IdxEntry)) {k k' : Str}
    (v : IdxEntry) (h : k' ≠ k) :
    lookupIdx (setIdx idx k' v) k = lookupIdx idx k := by
  induction idx with
  | nil => simp [setIdx, lookupIdx, h]
  | cons p t ih =>
    obtain ⟨a, b⟩ := p
    rw [setIdx]
    by_cases ha : a = k'
    · simp [ha, lookupIdx, h]
    · simp [ha, lookupIdx, ih]

theorem updateIndex_frozen (ts : Str) (idx : List (Str × IdxEntry))
    (rs : List CaptureResult) (k : Str) (h : ∀ x ∈ rs, x.domain ≠ k) :
    lookupIdx (updateIndex ts idx rs) k = lookupIdx idx k := by
  induction rs generalizing idx with
  | nil => rfl
  | cons r t ih =>
    unfold updateIndex
    rw [List.foldl_cons]
    have hr : r.domain ≠ k := h r (List.mem_cons_self _ _)
    have ht : ∀ x ∈ t, x.domain ≠ k :=
      fun x hx => h x (List.mem_cons_of_mem _ hx)
    by_cases hs : r.success
    · rw [if_pos hs]
      have := ih (setIdx idx r.domain (entryOf ts r)) ht
      unfold updateIndex at this
      rw [this, lookupIdx_setIdx_other _ _ hr]
    · rw [if_neg hs]
      have := ih idx ht
      unfold updateIndex at this
      exact this

-- ===========================================================================
-- Claim theorems
-- ===========================================================================

/-- C1: first_seen is write-once.  In the ledger, any already-present
entry survives processing any further feed days unchanged; in the
Registry, an upsert of an existing domain leaves the stored first_seen
(and id and created_at) untouched whatever first_seen argument is
passed. -/
theorem C1_first_seen_immutable :
    (∀ (m : List (Str × Str)) (days : List (List Str × Str)) (k v : Str),
      lookupS m k = some v → lookupS (processDays m days) k = some v) ∧
    (∀ (a : UpsertArgs) (now newId : Str) (reg : List DomainRow)
      (r : DomainRow), findRow reg a.domain = some r →
      ∃ rx, findRow (upsertDomain a now newId reg).2 a.domain = some rx ∧
        rx.first_seen = r.first_seen ∧ rx.id = r.id ∧
        rx.created_at = r.created_at) := by
  constructor
  · intro m days k v h
    exact processDays_preserves days h
  · intro a now newId reg r h
    refine ⟨updateRow a now r, ?_, rfl, rfl, rfl⟩
    rw [findRow_upsert, h]

/-- A concrete registry row used to exercise the upsert theorems. -/
def rowA : DomainRow where
  id := "id0".toList
  domain := "a.com".toList
  first_seen := "2025-01-01".toList
  last_checked := []
  is_active := false
  content_hash := []
  content_changed := false
  has_profile := false
  tags := []
  notes := none
  category := none
  risk_level := none
  created_at := []
  updated_at := []

/-- Concrete upsert arguments carrying a conflicting first_seen value. -/
def argsA : UpsertArgs where
  domain := "a.com".toList
  first_seen := some ("2099-12-31".toList)

/-- C1 witness: a ledger entry and a registry row survive a rerun and an
upsert with a different first_seen argument. -/
theorem C1_witness :
    lookupS (processDays [(("a.com".toList), ("2025-01-01".toList))]
        [([("A.com".toList)], ("2025-02-02".toList))]) ("a.com".toList) =
      some ("2025-01-01".toList) ∧
    ∃ rx, findRow (upsertDomain argsA ("now".toList) ("idN".toList)
        [rowA]).2 argsA.domain = some rx ∧
      rx.first_seen = rowA.first_seen ∧ rx.id = rowA.id ∧
      rx.created_at = rowA.created_at := by
  constructor
  · exact C1_first_seen_immutable.1 _ _ _ _ (by decide)
  · exact C1_first_seen_immutable.2 argsA _ _ [rowA] rowA (by decide)

/-- C9 counterexample: the domain "www.absa.co.za" is kept by
classification (golden), yet the ledger key the code records for it is
only the lowercased raw string, not its normalize_domain image, which has
the "www." prefix stripped. -/
theorem C9_counterexample :
    codeCategory [] ("www.absa.co.za".toList) = some Cat.golden ∧
    processMatches [] [("www.absa.co.za".toList)] ("2025-01-01".toList) =
      [(("www.absa.co.za".toList), ("2025-01-01".toList))] ∧
    ("www.absa.co.za".toList) ≠ normalizeDomain ("www.absa.co.za".toList) := by
  exact ⟨by decide, by decide, by decide⟩

/-- C9 (amended): every key newly written to the first-seen ledger is the
lowercased raw domain of some processed match (str.lower only, without
the scheme/path/www./trailing-dot stripping of the Normalizer), carrying
that day's date; keys stay unique, and the rows are sorted by key on
write. -/
theorem C9_ledger_key_amended :
    (∀ (m : List (Str × Str)) (ms : List Str) (date k v : Str),
      lookupS m k = none →
      lookupS (processMatches m ms date) k = some v →
      (∃ dm ∈ ms, k = toLowerL dm) ∧ v = date) ∧
    (∀ m : List (Str × Str),
      (saveFirstSeen m).Pairwise (fun a b => lexLe a.1 b.1 = true)) ∧
    (∀ (m : List (Str × Str)) (ms : List Str) (date : Str),
      (m.map Prod.fst).Nodup →
      ((processMatches m ms date).map Prod.fst).Nodup) := by
  refine ⟨fun m ms date k v h0 h1 => processMatches_new h0 h1, ?_,
    fun m ms date h => processMatches_nodupKeys ms date h⟩
  intro m
  unfold saveFirstSeen
  exact pairwise_insSort (fun a b => lexLe a.1 b.1)
    (fun a b => lexLe_total a.1 b.1)
    (fun {a b c} h1 h2 =>
      lexLe_trans (a := a.1) (b := b.1) (c := c.1) h1 h2) m

/-- C9 witness: a mixed-case match lands in the ledger under its
lowercased raw form with the feed date as value. -/
theorem C9_witness :
    (∃ dm ∈ [("WWW.Absa.co.za".toList)],
      ("www.absa.co.za".toList) = toLowerL dm) ∧
    ("2025-01-01".toList) = ("2025-01-01".toList) := by
  exact C9_ledger_key_amended.1 [] [("WWW.Absa.co.za".toList)]
    ("2025-01-01".toList) ("www.absa.co.za".toList) ("2025-01-01".toList)
    (by decide) (by decide)

/-- C7: the cumulative candidate file is append-only: a run leaves the old
contents as an unchanged prefix and appends exactly the sorted
deduplicated merge of the strict-filtered batch and the include list;
the appended segment is sorted; and two runs leave every domain of either
run's input present in the final file. -/
theorem C7_append_only :
    (∀ file filtered incl : List Str,
      (runAppend file filtered incl).take file.length = file ∧
      (runAppend file filtered incl).drop file.length =
        insSort lexLe (pyDedup (filtered ++ incl))) ∧
    (∀ filtered incl : List Str,
      (insSort lexLe (pyDedup (filtered ++ incl))).Pairwise
        (fun a b => lexLe a b = true)) ∧
    (∀ (file f1 i1 f2 i2 : List Str) (d : Str),
      d ∈ f1 ++ i1 ∨ d ∈ f2 ++ i2 →
      d ∈ runAppend (runAppend file f1 i1) f2 i2) := by
  refine ⟨?_, ?_, ?_⟩
  · intro file filtered incl
    unfold runAppend
    exact ⟨List.take_left file _, List.drop_left file _⟩
  · intro filtered incl
    exact pairwise_insSort lexLe lexLe_total
      (fun {a b c} h1 h2 => lexLe_trans h1 h2) _
  · intro file f1 i1 f2 i2 d h
    unfold runAppend
    rcases h with h | h
    · refine List.mem_append.mpr (Or.inl ?_)
      refine List.mem_append.mpr (Or.inr ?_)
      rw [mem_insSort, mem_pyDedup]
      exact h
    · refine List.mem_append.mpr (Or.inr ?_)
      rw [mem_insSort, mem_pyDedup]
      exact h

/-- C7 witness: two overlapping runs keep both runs' domains without
truncating the first run's lines. -/
theorem C7_witness :
    ("b.com".toList) ∈ runAppend (runAppend [("old.com".toList)]
      [("b.com".toList), ("a.com".toList)] [])
      [("c.com".toList), ("b.com".toList)] [] := by
  exact C7_append_only.2.2 [("old.com".toList)]
    [("b.com".toList), ("a.com".toList)] [] [("c.com".toList),
    ("b.com".toList)] [] ("b.com".toList) (Or.inl (by decide))

theorem tryUrl_hash {env : ScanEnv} {u : Str} {c : Str}
    (h : tryUrl env u = some c) : ∃ t, c = env.hash t := by
  cases hn : env.net u with
  | none =>
    unfold tryUrl at h
    rw [hn] at h
    exact absurd h (by simp)
  | some f =>
    unfold tryUrl at h
    rw [hn] at h
    dsimp only at h
    by_cases hcond : (f.status == 200 && !(stripL f.text).isEmpty) = true
    · rw [if_pos hcond] at h
      exact ⟨f.text, by injection h with h2; exact h2.symm⟩
    · rw [if_neg hcond] at h
      exact absurd h (by simp)

theorem probeHash_hash {env : ScanEnv} {d c : Str}
    (h : probeHash env d = some c) : ∃ t, c = env.hash t := by
  unfold probeHash at h
  cases h1 : tryUrl env (("https://".toList) ++ d) with
  | some x => rw [h1] at h; injection h with h2; exact tryUrl_hash (h2 ▸ h1)
  | none => rw [h1] at h; exact tryUrl_hash h

/-- C3: the content_changed value one scan computes and stores (in the
appended history row and the upserted registry row) is true exactly when
the probe produced a fingerprint and the previously stored fingerprint is
non-empty and different; it is false on a first-ever scan and on an
inactive probe, false for h1 then h1, true for h1 then h2. -/
theorem C3_content_changed (env : ScanEnv) (snap : List DomainRow)
    (fsm : List (Str × Str)) (st : ScanState) (d : Str)
    (hhash : ∀ s, env.hash s ≠ []) :
    ((scanSingle env snap fsm st d).1.hist = st.hist ++
      [histEntryOf env snap d
        (upsertDomain (scanArgs env fsm snap d) env.now env.newRowId st.reg).1] ∧
     (histEntryOf env snap d
        (upsertDomain (scanArgs env fsm snap d) env.now
          env.newRowId st.reg).1).content_changed = changedOf env snap d) ∧
    (∃ rx, findRow (scanSingle env snap fsm st d).1.reg d = some rx ∧
      rx.content_changed = changedOf env snap d) ∧
    (changedOf env snap d = true ↔ ∃ c, probeHash env d = some c ∧
      ∃ r, findRow snap d = some r ∧ r.content_hash ≠ [] ∧
        r.content_hash ≠ c) ∧
    (findRow snap d = none → changedOf env snap d = false) ∧
    (probeHash env d = none → changedOf env snap d = false) ∧
    computeChanged (some ("h1".toList)) (some ("h1".toList)) = false ∧
    computeChanged (some ("h2".toList)) (some ("h1".toList)) = true := by
  refine ⟨⟨rfl, rfl⟩, ?_, ?_, ?_, ?_, by decide, by decide⟩
  · have h := findRow_upsert (scanArgs env fsm snap d) env.now env.newRowId
      st.reg
    cases hreg : findRow st.reg (scanArgs env fsm snap d).domain with
    | none =>
      rw [hreg] at h
      exact ⟨newRow (scanArgs env fsm snap d) env.now env.newRowId, h, rfl⟩
    | some r =>
      rw [hreg] at h
      exact ⟨updateRow (scanArgs env fsm snap d) env.now r, h, rfl⟩
  · constructor
    · intro hch
      unfold changedOf computeChanged at hch
      cases hc : probeHash env d with
      | none => rw [hc] at hch; simp [pyTruthy] at hch
      | some c =>
        cases hr : findRow snap d with
        | none => rw [hc, hr] at hch; simp [pyTruthy] at hch
        | some r =>
          rw [hc, hr] at hch
          simp [pyTruthy, List.isEmpty_iff] at hch
          exact ⟨c, rfl, r, rfl, hch.1.2, hch.2⟩
    · rintro ⟨c, hc, r, hr, hne, hnec⟩
      have hcne : c ≠ [] := by
        obtain ⟨t, rfl⟩ := probeHash_hash hc
        exact hhash t
      unfold changedOf computeChanged
      rw [hc, hr]
      simp [pyTruthy, List.isEmpty_iff, hcne, hne, hnec]
  · intro hr
    unfold changedOf computeChanged
    rw [hr]
    simp [pyTruthy]
  · intro hc
    unfold changedOf computeChanged
    rw [hc]
    simp [pyTruthy]

/-- A registry-snapshot row whose stored fingerprint is h1. -/
def rowH1 : DomainRow where
  id := "idh".toList
  domain := "a.com".toList
  first_seen := "2025-01-01".toList
  last_checked := []
  is_active := true
  content_hash := "h1".toList
  content_changed := false
  has_profile := false
  tags := []
  notes := none
  category := none
  risk_level := none
  created_at := []
  updated_at := []

/-- A scan environment whose probe always succeeds with a fresh body and
whose hash prepends a marker, so hashes are never empty. -/
def envW : ScanEnv where
  net := fun _ => some { status := 200, text := "body".toList }
  hash := fun s => 'h' :: s
  ymdOk := fun _ => false
  dateToIso := fun s => s
  now := "T0".toList
  newRowId := "rid".toList
  newHistId := "hid".toList

/-- C3 witness: with stored fingerprint h1 and a probe hashing to a
different non-empty value, the scan computes content_changed = true. -/
theorem C3_witness : changedOf envW [rowH1] ("a.com".toList) = true :=
  ((C3_content_changed envW [rowH1] [] ⟨[rowH1], []⟩ ("a.com".toList)
    (fun s => List.cons_ne_nil _ _)).2.2.1).mpr
    ⟨("hbody".toList), by decide, rowH1, by decide, by decide, by decide⟩

/-- C5: a domain whose probes both raise is recorded inactive with no
fingerprint, and the batch still yields one result per domain, each equal
to that domain's own independent scan output. -/
theorem C5_failure_isolation (env : ScanEnv) (snap : List DomainRow)
    (fsm : List (Str × Str)) (st : ScanState) (batch : List Str) (d0 : Str)
    (h1 : env.net (("https://".toList) ++ d0) = none)
    (h2 : env.net (("http://".toList) ++ d0) = none) :
    (scanBatch env snap fsm st batch).2.length = batch.length ∧
    (scanBatch env snap fsm st batch).2 = batch.map (scanOutOf env snap) ∧
    probeHash env d0 = none ∧
    scanOutOf env snap d0 = ⟨d0, false, false⟩ ∧
    (∀ st' : ScanState, ∃ e, (scanSingle env snap fsm st' d0).1.hist =
      st'.hist ++ [e] ∧ e.is_active = false ∧ e.content_hash = none ∧
      e.screenshot_taken = false) := by
  have t1 : tryUrl env (("https://".toList) ++ d0) = none := by
    unfold tryUrl
    rw [h1]
  have t2 : tryUrl env (("http://".toList) ++ d0) = none := by
    unfold tryUrl
    rw [h2]
  have hp : probeHash env d0 = none := by
    unfold probeHash
    rw [t1, t2]
  refine ⟨by simp [scanBatch], rfl, hp, ?_, ?_⟩
  · unfold scanOutOf changedOf computeChanged
    rw [hp]
    rfl
  · intro st'
    refine ⟨histEntryOf env snap d0 (upsertDomain (scanArgs env fsm snap d0)
      env.now env.newRowId st'.reg).1, rfl, ?_, ?_, rfl⟩
    · unfold histEntryOf
      rw [hp]
      rfl
    · unfold histEntryOf
      rw [hp]

/-- A network that only serves one good domain; every other fetch raises. -/
def envMix : ScanEnv where
  net := fun u => if u = ("https://good.com".toList)
    then some { status := 200, text := "ok!".toList } else none
  hash := fun s => 'h' :: s
  ymdOk := fun _ => false
  dateToIso := fun s => s
  now := "T3".toList
  newRowId := "r2".toList
  newHistId := "h2".toList

/-- C5 witness: in a batch holding a good domain and an always-failing
domain, the batch returns one result per domain, each its own scan
output, and the failing domain is inactive with no fingerprint. -/
theorem C5_witness :
    (scanBatch envMix [] [] ⟨[], []⟩
      [("good.com".toList), ("bad.com".toList)]).2.length = 2 ∧
    (scanBatch envMix [] [] ⟨[], []⟩
        [("good.com".toList), ("bad.com".toList)]).2 =
      [("good.com".toList), ("bad.com".toList)].map (scanOutOf envMix []) ∧
    probeHash envMix ("bad.com".toList) = none ∧
    scanOutOf envMix [] ("bad.com".toList) =
      ⟨("bad.com".toList), false, false⟩ := by
  have h := C5_failure_isolation envMix [] [] ⟨[], []⟩
    [("good.com".toList), ("bad.com".toList)] ("bad.com".toList)
    (by decide) (by decide)
  exact ⟨h.1, h.2.1, h.2.2.1, h.2.2.2.1⟩

/-- A registry row carrying operator-set overlay fields. -/
def rowNotes : DomainRow where
  id := "idn".toList
  domain := "phish.co.za".toList
  first_seen := "2025-01-01".toList
  last_checked := []
  is_active := true
  content_hash := "h1".toList
  content_changed := false
  has_profile := false
  tags := []
  notes := some ("keep me".toList)
  category := some ("golden".toList)
  risk_level := some ("high".toList)
  created_at := []
  updated_at := []

/-- A scan environment whose every fetch raises. -/
def envNone : ScanEnv where
  net := fun _ => none
  hash := fun s => s
  ymdOk := fun _ => false
  dateToIso := fun s => s
  now := "T1".toList
  newRowId := "r3".toList
  newHistId := "h3".toList

/-- C10: scanning a domain whose registry row carries non-empty notes
rewrites the stored notes to NULL (and risk_level to unknown), because
scan_single_domain omits both arguments and upsert_domain's UPDATE branch
writes every overlay column unconditionally.  The claim (and the code's
own comment about preserving risk_level) say these fields are left
alone. -/
theorem C10_scan_clobbers_notes :
    rowNotes.notes = some ("keep me".toList) ∧
    rowNotes.risk_level = some ("high".toList) ∧
    (findRow (scanSingle envNone [rowNotes] [] ⟨[rowNotes], []⟩
        ("phish.co.za".toList)).1.reg ("phish.co.za".toList)).map
      (fun r => r.notes) = some none ∧
    (findRow (scanSingle envNone [rowNotes] [] ⟨[rowNotes], []⟩
        ("phish.co.za".toList)).1.reg ("phish.co.za".toList)).map
      (fun r => r.risk_level) = some (some ("unknown".toList)) := by
  exact ⟨rfl, rfl, by decide, by decide⟩

/-- C6 counterexample: with the fast tier failing the size check and the
reliable tier succeeding, the capture succeeds, but the method recorded in
the result and the index entry is the string playwright, not tier2 as the
claim has it. -/
theorem C6_counterexample :
    (captureSingle true (ShotOutcome.file 100) true (ShotOutcome.file 20000)
      ("https://absa-login.co.za".toList) ("absa-login.co.za".toList)
      (some ("h1".toList))).success = true ∧
    (captureSingle true (ShotOutcome.file 100) true (ShotOutcome.file 20000)
      ("https://absa-login.co.za".toList) ("absa-login.co.za".toList)
      (some ("h1".toList))).method ≠ some ("tier2".toList) ∧
    (entryOf ("ts0".toList) (captureSingle true (ShotOutcome.file 100) true
      (ShotOutcome.file 20000) ("https://absa-login.co.za".toList)
      ("absa-login.co.za".toList)
      (some ("h1".toList)))).capture_method ≠ ("tier2".toList) := by
  exact ⟨by decide, by decide, by decide⟩

/-- C6 (amended): whenever tier 1 fails or is unavailable, the capture
outcome is exactly the tier-2 attempt's outcome, and a tier-2 success is
recorded with the reliable tier's identifier (the string playwright) in
the result and the screenshot-index entry. -/
theorem C6_tier2_fallback (a1 a2 : Bool) (o1 o2 : ShotOutcome)
    (url domain ts : Str) (ch : Option Str)
    (hfail : (a1 && shotValid o1) = false) :
    (captureSingle a1 o1 a2 o2 url domain ch).success =
      (a2 && shotValid o2) ∧
    ((a2 && shotValid o2) = true →
      (captureSingle a1 o1 a2 o2 url domain ch).method =
        some ("playwright".toList) ∧
      (entryOf ts (captureSingle a1 o1 a2 o2 url domain ch)).capture_method =
        ("playwright".toList)) := by
  have hne : ¬(a1 && shotValid o1) = true := by
    rw [hfail]
    exact Bool.false_ne_true
  unfold captureSingle
  rw [if_neg hne]
  cases ha2 : a2 && shotValid o2 with
  | false =>
    rw [if_neg Bool.false_ne_true]
    exact ⟨rfl, fun h => absurd h Bool.false_ne_true⟩
  | true =>
    rw [if_pos rfl]
    exact ⟨rfl, fun _ => ⟨rfl, rfl⟩⟩

/-- C6 witness: an undersized fast-tier output with a valid reliable-tier
render succeeds through the fallback and records playwright. -/
theorem C6_witness :
    (captureSingle true (ShotOutcome.file 512) true (ShotOutcome.file 30000)
      ("absa-verify.com".toList) ("absa-verify.com".toList) none).success =
      true ∧
    (captureSingle true (ShotOutcome.file 512) true (ShotOutcome.file 30000)
      ("absa-verify.com".toList) ("absa-verify.com".toList) none).method =
      some ("playwright".toList) := by
  have h := C6_tier2_fallback true true (ShotOutcome.file 512)
    (ShotOutcome.file 30000) ("absa-verify.com".toList)
    ("absa-verify.com".toList) ("ts2".toList) none (by decide)
  refine ⟨?_, (h.2 (by decide)).1⟩
  rw [h.1]
  decide

theorem updateIndex_lookup (ts : Str) (results : List CaptureResult) :
    ∀ (idx : List (Str × IdxEntry)) (r : CaptureResult), r ∈ results →
    r.success = true → (results.map (fun x => x.domain)).Nodup →
    lookupIdx (updateIndex ts idx results) r.domain =
      some (entryOf ts r) := by
  induction results with
  | nil =>
    intro idx r hr
    cases hr
  | cons x t ih =>
    intro idx r hr hs hnd
    rw [List.map_cons, List.nodup_cons] at hnd
    unfold updateIndex
    rw [List.foldl_cons]
    rcases List.mem_cons.mp hr with rfl | hrt
    · rw [if_pos hs]
      have hfr : ∀ y ∈ t, y.domain ≠ r.domain := by
        intro y hy heq
        exact hnd.1 (heq ▸ List.mem_map_of_mem _ hy)
      have hfrozen := updateIndex_frozen ts
        (setIdx idx r.domain (entryOf ts r)) t r.domain hfr
      unfold updateIndex at hfrozen
      rw [hfrozen, lookupIdx_setIdx_same]
    · have htail : ∀ idx2, lookupIdx (updateIndex ts idx2 t) r.domain =
          some (entryOf ts r) := fun idx2 => ih idx2 r hrt hs hnd.2
      by_cases hx : x.success = true
      · rw [if_pos hx]
        have := htail (setIdx idx x.domain (entryOf ts x))
        unfold updateIndex at this
        exact this
      · rw [if_neg hx]
        have := htail idx
        unfold updateIndex at this
        exact this

/-- A scan environment whose single fetch succeeds, used to produce a
history row the capture step could have marked. -/
def envOk : ScanEnv where
  net := fun _ => some { status := 200, text := "body".toList }
  hash := fun s => 'h' :: s
  ymdOk := fun _ => false
  dateToIso := fun s => s
  now := "T2".toList
  newRowId := "r4".toList
  newHistId := "h4".toList

/-- A successful capture result for the scanned domain. -/
def resOk : CaptureResult where
  domain := "absa-login.co.za".toList
  url := "https://absa-login.co.za".toList
  filename := pngName ("absa-login.co.za".toList)
  content_hash := some ("h1".toList)
  success := true
  method := some ("playwright".toList)

/-- C8 counterexample: after a scan wrote this domain's history row and a
successful capture ran over it, the screenshot index entry is updated,
but the history row still carries screenshot_taken = false: the capture
step performs no history write at all, so the claimed marking never
happens. -/
theorem C8_counterexample :
    resOk.success = true ∧
    lookupIdx (captureStep (scanSingle envOk [] [] ⟨[], []⟩
        ("absa-login.co.za".toList)).1 ("ts1".toList) [] [resOk]).2
      ("absa-login.co.za".toList) = some (entryOf ("ts1".toList) resOk) ∧
    (captureStep (scanSingle envOk [] [] ⟨[], []⟩
        ("absa-login.co.za".toList)).1 ("ts1".toList) [] [resOk]).1.hist ≠
      [] ∧
    ((captureStep (scanSingle envOk [] [] ⟨[], []⟩
        ("absa-login.co.za".toList)).1 ("ts1".toList) [] [resOk]).1.hist.all
      (fun e => e.screenshot_taken == false)) = true := by
  exact ⟨rfl, by decide, by decide, by decide⟩

/-- C8 (amended): for every successful capture in a batch the capture
step writes that domain's screenshot-index entry (fingerprint, timestamp,
artifact path, method), and it leaves the registry and history state
entirely unchanged — in particular it does not set any history row's
screenshot_taken flag. -/
theorem C8_capture_updates_index_only (ts : Str)
    (idx : List (Str × IdxEntry)) (results : List CaptureResult)
    (st : ScanState) (r : CaptureResult) (hr : r ∈ results)
    (hs : r.success = true)
    (hnd : (results.map (fun x => x.domain)).Nodup) :
    lookupIdx (captureStep st ts idx results).2 r.domain =
      some (entryOf ts r) ∧
    (captureStep st ts idx results).1 = st :=
  ⟨updateIndex_lookup ts results idx r hr hs hnd, rfl⟩

/-- C8 witness: a two-result batch with one success updates the index for
the successful domain and leaves the scan state untouched. -/
theorem C8_witness :
    lookupIdx (captureStep ⟨[rowH1], []⟩ ("ts3".toList) [] [resOk,
      ⟨("other.com".toList), ("https://other.com".toList),
        pngName ("other.com".toList), none, false, none⟩]).2 resOk.domain =
      some (entryOf ("ts3".toList) resOk) ∧
    (captureStep ⟨[rowH1], []⟩ ("ts3".toList) [] [resOk,
      ⟨("other.com".toList), ("https://other.com".toList),
        pngName ("other.com".toList), none, false, none⟩]).1 =
      (⟨[rowH1], []⟩ : ScanState) := by
  exact C8_capture_updates_index_only ("ts3".toList) [] _ _ resOk
    (by decide) (by decide) (by decide)

/-- C2 witness: the golden example evaluated through the theorem. -/
theorem C2_witness :
    codeCategory [] ("absa-login.co.za".toList) = some Cat.golden :=
  C2_category_priority.2.1
